import Mathlib

/-!
Shallow embedding of `superior_predictive_ability.py`.

The source computes, over floating point numbers, a closed-form variant of
Hansen's SPA test: per-column Sharpe ratios of excess returns, a descending
ranking, a single Pearson correlation matrix of the raw returns in ranked
column order, and an elimination loop over suffix subsets of the ranking.

The embedding is over an arbitrary linear ordered field `α`, with the three
transcendental primitives the code takes from numpy/scipy (`np.sqrt`,
`np.log`, `norm.ppf`) as explicit parameters in a `Prims` record, so that
every definition is executable and concrete runs can be evaluated (over `ℚ`,
with concrete stand-ins for the primitives).

A Python function body that ends without executing a `return` statement
yields `None`; the loop of the source returns the accumulated list only from
inside the loop body, so a run whose loop exhausts its `range(N-2)` iterations
yields `None`.  The embedding makes this visible: `spaLoop` returns the
accumulated list together with a `Bool` that is `true` exactly when an
explicit `return` was executed, and `superior_predictive_ability` yields
`Option (List String)` — `none` for the fall-off-the-end case.
-/

namespace SPA

/-- The numeric primitives the source takes from numpy/scipy:
`np.sqrt`, `np.log` and `scipy.stats.norm.ppf`. -/
structure Prims (α : Type) where
  sqrt : α → α
  log : α → α
  ppf : α → α

variable {α : Type} [LinearOrderedField α] {β : Type} {γ : Type}

/-- Embeds `np.mean` / `DataFrame.mean` on a list of values. -/
def mean (xs : List α) : α := xs.sum / (xs.length : α)

/-- Python's `max` on a (nonempty in all source uses) collection;
`0` as a junk value on `[]`. -/
def listMax : List α → α
  | [] => 0
  | x :: xs => xs.foldl max x

/-- Sample variance with `ddof = 1` (the pandas `DataFrame.std` default). -/
def sampleVar (xs : List α) : α :=
  ((xs.map (fun x => (x - mean xs) ^ 2)).sum) / ((xs.length : α) - 1)

/-- Embeds `excess_returns.std(axis=0)` for one column (square root of the
`ddof = 1` sample variance). -/
def stdOf (P : Prims α) (xs : List α) : α := P.sqrt (sampleVar xs)

/-- One column's Sharpe ratio: mean of excess returns over their standard
deviation (`mean_returns / std_devs` in the source, with
`excess_returns = log_returns_df - risk_free_rate`). -/
def sharpeOf (P : Prims α) (rf : α) (xs : List α) : α :=
  mean (xs.map (fun x => x - rf)) / stdOf P (xs.map (fun x => x - rf))

/-- Sample covariance of two columns (`ddof = 1`, as in `np.cov`). -/
def covOf (xs ys : List α) : α :=
  (List.zipWith (fun x y => (x - mean xs) * (y - mean ys)) xs ys).sum
    / ((xs.length : α) - 1)

/-- One entry of `np.corrcoef`: the covariance divided by the product of the
square roots of the two variances. -/
def corrEntry (P : Prims α) (xs ys : List α) : α :=
  covOf xs ys / (P.sqrt (covOf xs xs) * P.sqrt (covOf ys ys))

/-- Insert an element into a list sorted descending by `key`, keeping it
behind equal keys (stable). -/
def insertDesc (key : β → α) (x : β) : List β → List β
  | [] => [x]
  | y :: ys => if key y < key x then x :: y :: ys else y :: insertDesc key x ys

/-- Stable sort, descending by `key`
(`sharpe_ratios.sort_values(ascending=False)` in the source). -/
def sortDescBy (key : β → α) : List β → List β
  | [] => []
  | x :: xs => insertDesc key x (sortDescBy key xs)

/-- A returns panel: one `(column name, column of per-period returns)` pair
per strategy, mirroring the `DataFrame` columns. -/
abbrev Panel (α : Type) := List (String × List α)

/-- The panel's columns reordered by descending Sharpe ratio of their excess
returns (`log_returns_df[strategies_list]` with
`strategies_list = sharpe_ratios.sort_values(ascending=False).index`). -/
def rankedColsOf (P : Prims α) (df : Panel α) (rf : α) : Panel α :=
  sortDescBy (fun c => sharpeOf P rf c.2) df

/-- The ranked strategies paired with their Sharpe ratios
(`sharpe_ratios[strategies_list]` in ranked order). -/
def rankedSharpes (P : Prims α) (df : Panel α) (rf : α) : List (String × α) :=
  (rankedColsOf P df rf).map (fun c => (c.1, sharpeOf P rf c.2))

/-- The names of the ranked strategies, best Sharpe first. -/
def rankingOf (P : Prims α) (df : Panel α) (rf : α) : List String :=
  (rankedSharpes P df rf).map Prod.fst

/-- Embeds `np.corrcoef(log_returns_df[strategies_list].values, rowvar=False)`:
the correlation matrix of the raw (not excess) returns, columns in ranked
order, as a list of rows.  Built once; the loop only reads it. -/
def corrMOf (P : Prims α) (cols : Panel α) : List (List α) :=
  cols.map (fun c => cols.map (fun d => corrEntry P c.2 d.2))

/-- Embeds `log_returns_df.shape[0]`: the number of time periods `T`
(all columns of a well-formed panel have this length). -/
def nRows (df : Panel α) : ℕ := (df.headD ("", [])).2.length

/-- Embeds `strategies_list[i:]`, as `(name, Sharpe)` pairs: the candidate subset of
iteration `i`. -/
def subsetAt (ranked : List (String × α)) (i : ℕ) : List (String × α) :=
  ranked.drop i

/-- Embeds `zeta_bar = np.mean(subset_sharpe_ratios)`. -/
def zbarAt (ranked : List (String × α)) (i : ℕ) : α :=
  mean ((subsetAt ranked i).map Prod.snd)

/-- Embeds `rho = np.mean(correlation_matrix[i][i + 1:])`: the mean of the fixed
matrix's row `i` entries strictly beyond column `i`. -/
def rhoAt (corrM : List (List α)) (i : ℕ) : α :=
  mean ((corrM.getD i []).drop (i + 1))

/-- Embeds `c = 1 / sqrt(1 + (subset_n_strategies - 1) * rho)`. -/
def cAt (P : Prims α) (ranked : List (String × α)) (corrM : List (List α))
    (i : ℕ) : α :=
  1 / P.sqrt (1 + (((subsetAt ranked i).length : α) - 1) * rhoAt corrM i)

/-- Embeds `term1 = c * zeta_ones_like`: the constant vector `c·ζ̄` over the subset. -/
def term1At (P : Prims α) (ranked : List (String × α)) (corrM : List (List α))
    (i : ℕ) : List α :=
  (subsetAt ranked i).map (fun _ => cAt P ranked corrM i * zbarAt ranked i)

/-- Embeds `term2 = (1 / sqrt(1 - rho)) * (subset_sharpe_ratios - zeta_ones_like)`. -/
def term2At (P : Prims α) (ranked : List (String × α)) (corrM : List (List α))
    (i : ℕ) : List α :=
  (subsetAt ranked i).map
    (fun p => (1 / P.sqrt (1 - rhoAt corrM i)) * (p.2 - zbarAt ranked i))

/-- Embeds `xi = term1 + term2` (elementwise Series addition). -/
def xiAt (P : Prims α) (ranked : List (String × α)) (corrM : List (List α))
    (i : ℕ) : List α :=
  List.zipWith (fun x y => x + y) (term1At P ranked corrM i)
    (term2At P ranked corrM i)

/-- Embeds `initial_threshold = c * null_sharpe - sqrt(2 * log(log(n)) / n)` with
`n = T` the number of time periods. -/
def thresholdAt (P : Prims α) (ranked : List (String × α))
    (corrM : List (List α)) (T : ℕ) (ns : α) (i : ℕ) : α :=
  cAt P ranked corrM i * ns - P.sqrt (2 * P.log (P.log (T : α)) / (T : α))

/-- Embeds `strategies_passed_list = xi[xi > initial_threshold].index`: names of the
subset strategies whose adjusted statistic strictly exceeds the threshold. -/
def passedAt (P : Prims α) (ranked : List (String × α))
    (corrM : List (List α)) (T : ℕ) (ns : α) (i : ℕ) : List String :=
  ((((subsetAt ranked i).map Prod.fst).zip (xiAt P ranked corrM i)).filter
    (fun q => decide (thresholdAt P ranked corrM T ns i < q.2))).map Prod.fst

/-- The elimination loop.  State: current rank position `i`, remaining
iteration budget `fuel` (`n_strategies - 2 - i` at entry), accumulated
accepted names `acc` (`statistically_significant`).  The `Bool` of the result
is `true` iff the run left via one of the source's `return` statements;
`false` means the `for` loop exhausted its range and the Python function fell
off the end (returning `None`). -/
def spaLoop (P : Prims α) (ranked : List (String × α)) (corrM : List (List α))
    (T : ℕ) (ns a : α) : ℕ → ℕ → List String → List String × Bool
  | _, 0, acc => (acc, false)
  | i, fuel + 1, acc =>
    if (passedAt P ranked corrM T ns i).length = 0 then
      (acc, true)
    else if P.ppf (1 - a / ((passedAt P ranked corrM T ns i).length : α)) ≤
        listMax (xiAt P ranked corrM i) - cAt P ranked corrM i * ns then
      spaLoop P ranked corrM T ns a (i + 1) fuel
        (acc ++ [((subsetAt ranked i).headD ("", 0)).1])
    else
      (acc, true)

/-- The whole run: ranking, fixed correlation matrix, then the loop from
`i = 0` with iteration budget `n_strategies - 2` and empty accumulator. -/
def spaRun (P : Prims α) (df : Panel α) (rf ns a : α) : List String × Bool :=
  spaLoop P (rankedSharpes P df rf) (corrMOf P (rankedColsOf P df rf))
    (nRows df) ns a 0 (df.length - 2) []

/-- Embeds `superior_predictive_ability(log_returns_df, risk_free_rate, null_sharpe,
alpha)`: `some` of the accumulated list when a `return` statement ran,
`none` when the function fell off the end of the loop. -/
def superior_predictive_ability (P : Prims α) (df : Panel α)
    (rf ns a : α) : Option (List String) :=
  if (spaRun P df rf ns a).2 then some (spaRun P df rf ns a).1 else none

/-- Concrete stand-in primitives over `ℚ` for evaluating runs of the
embedded algorithm on sample data. -/
def qPrims : Prims ℚ := ⟨fun _ => 1, fun _ => 0, fun _ => 0⟩

/-- Concrete stand-in primitives over `ℚ` whose `ppf` is the identity
function (so it is monotone, like the true normal quantile function). -/
def idPrims : Prims ℚ := ⟨fun _ => 1, fun _ => 0, fun x => x⟩

/-- A sample 3-period, 3-strategy panel. -/
def df3 : Panel ℚ := [("A", [2, 3, 4]), ("B", [1, 2, 3]), ("C", [0, 1, 2])]

/-- A sample ranked `(name, Sharpe)` list for exercising the loop directly. -/
def ranked3 : List (String × ℚ) := [("A", 3), ("B", 2), ("C", 1)]

/-- A sample fixed correlation matrix for `ranked3`. -/
def corr3 : List (List ℚ) := [[1, 1, 1], [1, 1, 1], [1, 1, 1]]

/-! ### General list lemmas -/

/-- Lemma: `getD` through a `map` turns the default along with the elements. -/
theorem getD_map (f : β → γ) (d : β) :
    ∀ (l : List β) (i : ℕ), (l.map f).getD i (f d) = f (l.getD i d)
  | [], _ => by simp
  | x :: xs, 0 => rfl
  | x :: xs, i + 1 => by
    simpa using getD_map f d xs i

/-- Lemma: `getD` on an elementwise sum of two mapped copies of one list. -/
theorem getD_zipWith_map (d : β) (f g : β → α) :
    ∀ (l : List β) (j : ℕ), j < l.length →
      (List.zipWith (fun x y => x + y) (l.map f) (l.map g)).getD j 0 =
        f (l.getD j d) + g (l.getD j d)
  | [], j, hj => absurd hj (by simp)
  | x :: xs, 0, _ => rfl
  | x :: xs, j + 1, hj => by
    simpa using getD_zipWith_map d f g xs j (by simpa using hj)

/-- Counting by a predicate on the second components of a zip of two
equal-length lists. -/
theorem zip_filter_count (p : α → Bool) :
    ∀ (as : List γ) (bs : List α), as.length = bs.length →
      (((as.zip bs).filter (fun q => p q.2)).map Prod.fst).length = bs.countP p
  | [], [], _ => rfl
  | [], b :: bs, h => by simp at h
  | a :: as, [], h => by simp at h
  | a :: as, b :: bs, h => by
    have ih := zip_filter_count p as bs (by simpa using h)
    by_cases hp : p b = true <;>
      simp [List.filter_cons, List.countP_cons, hp, ih]

/-- Extending a `take` by the element at its end. -/
theorem take_concat_getD (d : γ) :
    ∀ (l : List γ) (i : ℕ), i < l.length →
      l.take i ++ [l.getD i d] = l.take (i + 1)
  | [], i, hi => absurd hi (by simp)
  | x :: xs, 0, _ => rfl
  | x :: xs, i + 1, hi => by
    simpa using take_concat_getD d xs i (by simpa using hi)

/-- The head of `l.drop i` is the `i`-th element. -/
theorem headD_drop (d : γ) :
    ∀ (l : List γ) (i : ℕ), i < l.length → (l.drop i).headD d = l.getD i d
  | [], i, hi => absurd hi (by simp)
  | x :: xs, 0, _ => rfl
  | x :: xs, i + 1, hi => by
    simpa using headD_drop d xs i (by simpa using hi)

/-- The default head of a nonempty list is a member. -/
theorem headD_mem (d : γ) : ∀ (l : List γ), l ≠ [] → l.headD d ∈ l
  | [], h => absurd rfl h
  | x :: xs, _ => by simp

/-- In a duplicate-free list, the element at position `k` does not occur
among the first `j ≤ k` elements. -/
theorem getD_not_mem_take {l : List String} (hnd : l.Nodup) {j k : ℕ}
    (hjk : j ≤ k) (hk : k < l.length) : l.getD k "" ∉ l.take j := by
  intro hmem
  have hsub : l.take j ⊆ l.take k := by
    have : l.take j = (l.take k).take j := by
      rw [List.take_take, min_eq_left hjk]
    rw [this]
    exact List.take_subset _ _
  have hdisj : List.Disjoint (l.take k) (l.drop k) :=
    List.disjoint_take_drop hnd le_rfl
  have hne : l.drop k ≠ [] := by
    intro hnil
    have := congrArg List.length hnil
    simp [List.length_drop] at this
    omega
  have hindrop : l.getD k "" ∈ l.drop k := by
    rw [← headD_drop "" l k hk]
    exact headD_mem "" _ hne
  exact hdisj (hsub hmem) hindrop

/-! ### Ranking lemmas -/

/-- Inserting into a descending-sorted list is a permutation of a cons. -/
theorem insertDesc_perm (key : β → α) (x : β) :
    ∀ l, List.Perm (insertDesc key x l) (x :: l)
  | [] => List.Perm.refl _
  | y :: ys => by
    rw [insertDesc]
    by_cases h : key y < key x
    · simp [h]
    · simp only [h, if_false]
      exact (List.Perm.cons y (insertDesc_perm key x ys)).trans
        (List.Perm.swap x y ys)

/-- The descending insertion sort permutes its input. -/
theorem sortDescBy_perm (key : β → α) :
    ∀ l, List.Perm (sortDescBy key l) l
  | [] => List.Perm.refl _
  | x :: xs =>
    (insertDesc_perm key x (sortDescBy key xs)).trans
      (List.Perm.cons x (sortDescBy_perm key xs))

/-- Ranking keeps the number of strategies. -/
theorem rankedSharpes_length (P : Prims α) (df : Panel α) (rf : α) :
    (rankedSharpes P df rf).length = df.length := by
  rw [rankedSharpes, List.length_map, rankedColsOf]
  exact (sortDescBy_perm _ df).length_eq

/-- The ranked strategy names permute the panel's column names. -/
theorem rankingOf_perm (P : Prims α) (df : Panel α) (rf : α) :
    List.Perm (rankingOf P df rf) (df.map Prod.fst) := by
  rw [rankingOf, rankedSharpes, List.map_map]
  exact List.Perm.map _ (sortDescBy_perm _ df)

/-- The number of ranked names is the number of strategies. -/
theorem rankingOf_length (P : Prims α) (df : Panel α) (rf : α) :
    (rankingOf P df rf).length = df.length := by
  rw [rankingOf, List.length_map, rankedSharpes_length]

/-- The `xi` vector is aligned with the subset. -/
theorem xiAt_length (P : Prims α) (ranked : List (String × α))
    (corrM : List (List α)) (i : ℕ) :
    (xiAt P ranked corrM i).length = (subsetAt ranked i).length := by
  simp [xiAt, term1At, term2At]

/-! ### Elimination-loop lemmas -/

/-- An exhausted iteration budget means the `for` loop finished all its
iterations: the Python function then falls off the end (`Bool` is `false`). -/
theorem spaLoop_zero (P : Prims α) (ranked : List (String × α))
    (corrM : List (List α)) (T : ℕ) (ns a : α) (i : ℕ) (acc : List String) :
    spaLoop P ranked corrM T ns a i 0 acc = (acc, false) := rfl

/-- One unfolding of the loop body. -/
theorem spaLoop_succ (P : Prims α) (ranked : List (String × α))
    (corrM : List (List α)) (T : ℕ) (ns a : α) (i fuel : ℕ)
    (acc : List String) :
    spaLoop P ranked corrM T ns a i (fuel + 1) acc =
      if (passedAt P ranked corrM T ns i).length = 0 then
        (acc, true)
      else if P.ppf (1 - a / ((passedAt P ranked corrM T ns i).length : α)) ≤
          listMax (xiAt P ranked corrM i) - cAt P ranked corrM i * ns then
        spaLoop P ranked corrM T ns a (i + 1) fuel
          (acc ++ [((subsetAt ranked i).headD ("", 0)).1])
      else
        (acc, true) := rfl

/-- Whatever the loop does, it only ever appends to the accumulator. -/
theorem spaLoop_acc_extends (P : Prims α) (ranked : List (String × α))
    (corrM : List (List α)) (T : ℕ) (ns a : α) :
    ∀ (fuel i : ℕ) (acc : List String),
      ∃ t, (spaLoop P ranked corrM T ns a i fuel acc).1 = acc ++ t
  | 0, i, acc => ⟨[], by simp [spaLoop_zero]⟩
  | fuel + 1, i, acc => by
    rw [spaLoop_succ]
    by_cases h0 : (passedAt P ranked corrM T ns i).length = 0
    · exact ⟨[], by simp [h0]⟩
    · by_cases hc : P.ppf (1 - a / ((passedAt P ranked corrM T ns i).length : α)) ≤
          listMax (xiAt P ranked corrM i) - cAt P ranked corrM i * ns
      · obtain ⟨t, ht⟩ := spaLoop_acc_extends P ranked corrM T ns a fuel (i + 1)
          (acc ++ [((subsetAt ranked i).headD ("", 0)).1])
        refine ⟨((subsetAt ranked i).headD ("", 0)).1 :: t, ?_⟩
        rw [if_neg h0, if_pos hc, ht, List.append_assoc, List.singleton_append]
      · exact ⟨[], by rw [if_neg h0, if_neg hc]; simp⟩

/-- Each loop iteration accepts at most one strategy. -/
theorem spaLoop_length_le (P : Prims α) (ranked : List (String × α))
    (corrM : List (List α)) (T : ℕ) (ns a : α) :
    ∀ (fuel i : ℕ) (acc : List String),
      (spaLoop P ranked corrM T ns a i fuel acc).1.length ≤ acc.length + fuel
  | 0, i, acc => Nat.le_add_right _ _
  | fuel + 1, i, acc => by
    rw [spaLoop_succ]
    by_cases h0 : (passedAt P ranked corrM T ns i).length = 0
    · rw [if_pos h0]
      exact Nat.le_add_right _ _
    · by_cases hc : P.ppf (1 - a / ((passedAt P ranked corrM T ns i).length : α)) ≤
          listMax (xiAt P ranked corrM i) - cAt P ranked corrM i * ns
      · have ih := spaLoop_length_le P ranked corrM T ns a fuel (i + 1)
          (acc ++ [((subsetAt ranked i).headD ("", 0)).1])
        rw [if_neg h0, if_pos hc]
        refine le_trans ih ?_
        simp only [List.length_append, List.length_singleton]
        omega
      · rw [if_neg h0, if_neg hc]
        exact Nat.le_add_right _ _

/-- Loop invariant: starting from an accumulator that is the `take i` of the
ranking and a budget that never lets `i` leave the ranking, the accumulator
stays a `take` of the ranking. -/
theorem spaLoop_take (P : Prims α) (ranked : List (String × α))
    (corrM : List (List α)) (T : ℕ) (ns a : α) :
    ∀ (fuel i : ℕ) (acc : List String), i + fuel ≤ ranked.length →
      acc = (ranked.map Prod.fst).take i →
      ∃ j, j ≤ ranked.length ∧
        (spaLoop P ranked corrM T ns a i fuel acc).1 =
          (ranked.map Prod.fst).take j
  | 0, i, acc, hbound, hacc => ⟨i, by omega, by simp [spaLoop_zero, hacc]⟩
  | fuel + 1, i, acc, hbound, hacc => by
    rw [spaLoop_succ]
    by_cases h0 : (passedAt P ranked corrM T ns i).length = 0
    · exact ⟨i, by omega, by simp [h0, hacc]⟩
    · by_cases hc : P.ppf (1 - a / ((passedAt P ranked corrM T ns i).length : α)) ≤
          listMax (xiAt P ranked corrM i) - cAt P ranked corrM i * ns
      · have hi : i < ranked.length := by omega
        have hhead : ((subsetAt ranked i).headD ("", 0)).1 =
            (ranked.map Prod.fst).getD i "" := by
          rw [subsetAt, headD_drop ("", 0) ranked i hi, ← getD_map Prod.fst]
        have hacc1 : acc ++ [((subsetAt ranked i).headD ("", 0)).1] =
            (ranked.map Prod.fst).take (i + 1) := by
          rw [hacc, hhead, take_concat_getD "" (ranked.map Prod.fst) i
            (by simpa using hi)]
        obtain ⟨j, hj, hres⟩ := spaLoop_take P ranked corrM T ns a fuel (i + 1)
          (acc ++ [((subsetAt ranked i).headD ("", 0)).1]) (by omega) hacc1
        exact ⟨j, hj, by simp only [if_neg h0, if_pos hc]; exact hres⟩
      · exact ⟨i, by omega, by simp [h0, hc, hacc]⟩

/-- Raising `alpha` only ever extends the accepted list: the passed set and
the adjusted statistics do not depend on `alpha`, and the Bonferroni critical
value `ppf (1 - a / k)` only shrinks when `a` grows. -/
theorem spaLoop_alpha_le (P : Prims α) (ranked : List (String × α))
    (corrM : List (List α)) (T : ℕ) (ns : α) (a1 a2 : α)
    (hm : Monotone P.ppf) (ha : a1 ≤ a2) :
    ∀ (fuel i : ℕ) (acc : List String),
      ∃ t, (spaLoop P ranked corrM T ns a2 i fuel acc).1 =
        (spaLoop P ranked corrM T ns a1 i fuel acc).1 ++ t
  | 0, i, acc => ⟨[], by simp [spaLoop_zero]⟩
  | fuel + 1, i, acc => by
    by_cases h0 : (passedAt P ranked corrM T ns i).length = 0
    · exact ⟨[], by simp [spaLoop_succ, h0]⟩
    · by_cases hc1 : P.ppf (1 - a1 / ((passedAt P ranked corrM T ns i).length : α)) ≤
          listMax (xiAt P ranked corrM i) - cAt P ranked corrM i * ns
      · have hkpos : (0 : α) < ((passedAt P ranked corrM T ns i).length : α) := by
          exact_mod_cast Nat.pos_of_ne_zero h0
        have hdiv : a1 / ((passedAt P ranked corrM T ns i).length : α) ≤
            a2 / ((passedAt P ranked corrM T ns i).length : α) :=
          (div_le_div_right hkpos).mpr ha
        have hc2 : P.ppf (1 - a2 / ((passedAt P ranked corrM T ns i).length : α)) ≤
            listMax (xiAt P ranked corrM i) - cAt P ranked corrM i * ns :=
          le_trans (hm (by linarith)) hc1
        obtain ⟨t, ht⟩ := spaLoop_alpha_le P ranked corrM T ns a1 a2 hm ha fuel
          (i + 1) (acc ++ [((subsetAt ranked i).headD ("", 0)).1])
        refine ⟨t, ?_⟩
        rw [spaLoop_succ P ranked corrM T ns a2, if_neg h0, if_pos hc2,
          spaLoop_succ P ranked corrM T ns a1, if_neg h0, if_pos hc1]
        exact ht
      · obtain ⟨t, ht⟩ := spaLoop_acc_extends P ranked corrM T ns a2 (fuel + 1) i acc
        refine ⟨t, ?_⟩
        rw [ht, spaLoop_succ, if_neg h0, if_neg hc1]

/-- A `some` result of the evaluator is the loop's accumulated list. -/
theorem spa_eq_some {P : Prims α} {df : Panel α} {rf ns a : α}
    {l : List String}
    (h : superior_predictive_ability P df rf ns a = some l) :
    l = (spaRun P df rf ns a).1 := by
  rw [superior_predictive_ability] at h
  by_cases hb : (spaRun P df rf ns a).2
  · rw [if_pos hb] at h
    exact (Option.some_inj.mp h).symm
  · rw [if_neg hb] at h
    exact absurd h (by simp)

/-! ### Claims -/

unseal Rat.add Rat.mul Rat.inv Rat.sub in
/-- Claim C1: the claim says the evaluator returns the accumulated Result
List in every terminating case, including the stop case where the loop ran
its full `N - 2` iterations with every candidate accepted.  The code does
not: its `return` statements are all inside the loop, so on a 3-strategy
panel whose single iteration accepts its candidate (here `"A"` is accepted,
as the run's accumulator shows), the Python function falls off the end of
the loop and returns `None` rather than the accumulated `["A"]`. -/
theorem C1_full_acceptance_returns_none :
    spaRun qPrims df3 0 0 (1 / 20) = (["A"], false) ∧
      superior_predictive_ability qPrims df3 0 0 (1 / 20) = none := by
  constructor <;> decide

/-- Claim C2: the claim says that for `N = 2` strategies the loop runs zero
iterations and the evaluator returns the empty list.  The loop indeed runs
zero iterations (`range(0)`), but the function then ends without executing
any `return` statement, so it returns `None`, not `[]` — for every
2-strategy panel and all parameters. -/
theorem C2_two_strategies_return_none (P : Prims α) (x y : String × List α)
    (rf ns a : α) : superior_predictive_ability P [x, y] rf ns a = none := rfl

/-- Claim C3: in an iteration with `k̃ > 0`, the top-ranked strategy of the
current subset is appended and the loop continues exactly when
`max(ξ) - c·null_sharpe ≥ Φ⁻¹(1 - α/k̃)`; otherwise the whole procedure
returns the accumulated list without the current candidate. -/
theorem C3_bonferroni_decision (P : Prims α) (ranked : List (String × α))
    (corrM : List (List α)) (T : ℕ) (ns a : α) (i fuel : ℕ)
    (acc : List String) (hk : 0 < (passedAt P ranked corrM T ns i).length) :
    (P.ppf (1 - a / ((passedAt P ranked corrM T ns i).length : α)) ≤
        listMax (xiAt P ranked corrM i) - cAt P ranked corrM i * ns →
      spaLoop P ranked corrM T ns a i (fuel + 1) acc =
        spaLoop P ranked corrM T ns a (i + 1) fuel
          (acc ++ [((subsetAt ranked i).headD ("", 0)).1])) ∧
    (¬ P.ppf (1 - a / ((passedAt P ranked corrM T ns i).length : α)) ≤
        listMax (xiAt P ranked corrM i) - cAt P ranked corrM i * ns →
      spaLoop P ranked corrM T ns a i (fuel + 1) acc = (acc, true)) := by
  have h0 : ¬ (passedAt P ranked corrM T ns i).length = 0 :=
    Nat.pos_iff_ne_zero.mp hk
  constructor
  · intro h
    rw [spaLoop_succ, if_neg h0, if_pos h]
  · intro h
    rw [spaLoop_succ, if_neg h0, if_neg h]

unseal Rat.add Rat.mul Rat.inv Rat.sub in
/-- Witness for C3, on concrete data where `k̃ = 3 > 0` and the Bonferroni
check passes: the loop appends `"A"` and continues. -/
theorem C3_bonferroni_decision_witness :
    spaLoop qPrims ranked3 corr3 3 0 (1 / 20) 0 1 [] =
      spaLoop qPrims ranked3 corr3 3 0 (1 / 20) 1 0 ["A"] :=
  (C3_bonferroni_decision qPrims ranked3 corr3 3 0 (1 / 20) 0 0 []
    (by decide)).1 (by decide)

/-- Claim C4: in iteration `i` over the subset of size `m = N - i`, each
adjusted statistic equals `c·ζ̄ + (1/sqrt(1 - ρ̄))·(Sharpe - ζ̄)`, where `ζ̄`
is the mean of the subset's Sharpe ratios, `c = 1/sqrt(1 + (m - 1)·ρ̄)`, and
`ρ̄` is the mean of row `i` beyond column `i` of the one correlation matrix
built from the raw returns in ranked column order (the same matrix at every
iteration). -/
theorem C4_adjusted_statistic (P : Prims α) (df : Panel α) (rf : α)
    (i j : ℕ) (hj : j < df.length - i) :
    (xiAt P (rankedSharpes P df rf) (corrMOf P (rankedColsOf P df rf))
        i).getD j 0 =
      1 / P.sqrt (1 + (((df.length - i : ℕ) : α) - 1) *
          mean (((corrMOf P (rankedColsOf P df rf)).getD i []).drop (i + 1))) *
        mean ((subsetAt (rankedSharpes P df rf) i).map Prod.snd) +
      1 / P.sqrt (1 -
          mean (((corrMOf P (rankedColsOf P df rf)).getD i []).drop (i + 1))) *
        (((subsetAt (rankedSharpes P df rf) i).getD j ("", 0)).2 -
          mean ((subsetAt (rankedSharpes P df rf) i).map Prod.snd)) := by
  have hlen : (subsetAt (rankedSharpes P df rf) i).length = df.length - i := by
    rw [subsetAt, List.length_drop, rankedSharpes_length]
  have hj' : j < (subsetAt (rankedSharpes P df rf) i).length := by
    rw [hlen]; exact hj
  rw [xiAt, term1At, term2At, getD_zipWith_map ("", 0) _ _ _ j hj']
  simp only [cAt, rhoAt, zbarAt, hlen]

unseal Rat.add Rat.mul Rat.inv Rat.sub in
/-- Witness for C4 at `i = 0`, `j = 0` of the sample panel. -/
theorem C4_adjusted_statistic_witness :
    (xiAt qPrims (rankedSharpes qPrims df3 0)
        (corrMOf qPrims (rankedColsOf qPrims df3 0)) 0).getD 0 0 =
      1 / qPrims.sqrt (1 + (((df3.length - 0 : ℕ) : ℚ) - 1) *
          mean (((corrMOf qPrims (rankedColsOf qPrims df3 0)).getD 0 []).drop
            (0 + 1))) *
        mean ((subsetAt (rankedSharpes qPrims df3 0) 0).map Prod.snd) +
      1 / qPrims.sqrt (1 -
          mean (((corrMOf qPrims (rankedColsOf qPrims df3 0)).getD 0 []).drop
            (0 + 1))) *
        (((subsetAt (rankedSharpes qPrims df3 0) 0).getD 0 ("", 0)).2 -
          mean ((subsetAt (rankedSharpes qPrims df3 0) 0).map Prod.snd)) :=
  C4_adjusted_statistic qPrims df3 0 0 0 (by decide)

/-- Claim C5: the significance threshold of every iteration is
`c·null_sharpe - sqrt(2·ln(ln T)/T)` with `T` the number of time periods,
and `k̃` counts exactly the subset strategies whose adjusted statistic
strictly exceeds it. -/
theorem C5_threshold_and_passed (P : Prims α) (df : Panel α) (rf ns : α)
    (i : ℕ) :
    thresholdAt P (rankedSharpes P df rf) (corrMOf P (rankedColsOf P df rf))
        (nRows df) ns i =
      cAt P (rankedSharpes P df rf) (corrMOf P (rankedColsOf P df rf)) i * ns -
        P.sqrt (2 * P.log (P.log ((nRows df : ℕ) : α)) / ((nRows df : ℕ) : α)) ∧
    (passedAt P (rankedSharpes P df rf) (corrMOf P (rankedColsOf P df rf))
        (nRows df) ns i).length =
      (xiAt P (rankedSharpes P df rf) (corrMOf P (rankedColsOf P df rf))
        i).countP (fun x => decide
          (thresholdAt P (rankedSharpes P df rf)
            (corrMOf P (rankedColsOf P df rf)) (nRows df) ns i < x)) := by
  refine ⟨rfl, ?_⟩
  rw [passedAt]
  refine zip_filter_count
    (fun x => decide (thresholdAt P (rankedSharpes P df rf)
      (corrMOf P (rankedColsOf P df rf)) (nRows df) ns i < x)) _ _ ?_
  rw [List.length_map, xiAt_length]

/-- Claim C6: an iteration that finds `k̃ = 0` makes the whole procedure
return the list accepted so far, immediately and as a normal result — the
loop equation has no recursive call in this case, so no smaller subset is
ever examined. -/
theorem C6_ktilde_zero_hard_stop (P : Prims α) (ranked : List (String × α))
    (corrM : List (List α)) (T : ℕ) (ns a : α) (i fuel : ℕ)
    (acc : List String)
    (hk : (passedAt P ranked corrM T ns i).length = 0) :
    spaLoop P ranked corrM T ns a i (fuel + 1) acc = (acc, true) := by
  rw [spaLoop_succ, if_pos hk]

unseal Rat.add Rat.mul Rat.inv Rat.sub in
/-- Witness for C6: with `null_sharpe = 100` the threshold clears every
statistic, `k̃ = 0`, and the loop stops at once with the (empty) list. -/
theorem C6_ktilde_zero_hard_stop_witness :
    spaLoop qPrims ranked3 corr3 3 100 (1 / 20) 0 1 [] = ([], true) :=
  C6_ktilde_zero_hard_stop qPrims ranked3 corr3 3 100 (1 / 20) 0 0 []
    (by decide)

/-- Claim C7: whenever the evaluator returns a list, that list is an initial
segment, in rank order, of the descending-Sharpe ranking: it equals the
`take` of the ranking at its own length. -/
theorem C7_result_ranked_initial_segment (P : Prims α) (df : Panel α)
    (rf ns a : α) (l : List String)
    (h : superior_predictive_ability P df rf ns a = some l) :
    l = (rankingOf P df rf).take l.length := by
  have hl : l = (spaRun P df rf ns a).1 := spa_eq_some h
  obtain ⟨j, hj, hres⟩ := spaLoop_take P (rankedSharpes P df rf)
    (corrMOf P (rankedColsOf P df rf)) (nRows df) ns a (df.length - 2) 0 []
    (by rw [rankedSharpes_length]; omega) (by simp)
  have hrun : (spaRun P df rf ns a).1 =
      ((rankedSharpes P df rf).map Prod.fst).take j := hres
  have hjdf : j ≤ df.length := by rw [rankedSharpes_length] at hj; exact hj
  have hlen : (((rankedSharpes P df rf).map Prod.fst).take j).length = j := by
    rw [List.length_take, List.length_map, rankedSharpes_length]
    omega
  rw [hl, hrun, hlen]
  rfl

unseal Rat.add Rat.mul Rat.inv Rat.sub in
/-- Witness for C7 on a run that returns `some []` (the first iteration
already finds `k̃ = 0`). -/
theorem C7_result_ranked_initial_segment_witness :
    ([] : List String) =
      (rankingOf qPrims df3 0).take ([] : List String).length :=
  C7_result_ranked_initial_segment qPrims df3 0 100 (1 / 20) [] (by decide)

/-- Claim C8: with the panel, risk-free rate and null Sharpe fixed and the
normal quantile function monotone, every strategy accepted at `a1 < a2` is
also accepted at `a2`. -/
theorem C8_alpha_monotone (P : Prims α) (df : Panel α) (rf ns a1 a2 : α)
    (hm : Monotone P.ppf) (ha : a1 < a2) :
    ∀ x, x ∈ (spaRun P df rf ns a1).1 → x ∈ (spaRun P df rf ns a2).1 := by
  intro x hx
  obtain ⟨t, ht⟩ := spaLoop_alpha_le P (rankedSharpes P df rf)
    (corrMOf P (rankedColsOf P df rf)) (nRows df) ns a1 a2 hm (le_of_lt ha)
    (df.length - 2) 0 []
  have ht2 : (spaRun P df rf ns a2).1 = (spaRun P df rf ns a1).1 ++ t := ht
  rw [ht2]
  exact List.mem_append_left _ hx

unseal Rat.add Rat.mul Rat.inv Rat.sub in
/-- Witness for C8: `"A"` is accepted at `alpha = 1/20`, hence also at
`alpha = 1/5` (primitives with the identity as a monotone `ppf`). -/
theorem C8_alpha_monotone_witness :
    "A" ∈ (spaRun idPrims df3 0 0 (1 / 5)).1 :=
  C8_alpha_monotone idPrims df3 0 0 (1 / 20) (1 / 5) (fun _ _ h => h)
    (by decide) "A" (by decide)

/-- Claim C9: the claim says malformed input (wrong shape, missing values,
fewer than 2 strategies, `T` too small) makes the evaluator fail fast with a
descriptive error.  The code has no validation at all: on a panel with a
single strategy it silently runs zero loop iterations and returns `None` —
a normal, error-free return, for every choice of parameters — contradicting
both the claim and the function's declared `list[str]` contract. -/
theorem C9_single_strategy_silent_none (P : Prims α) (x : String × List α)
    (rf ns a : α) : superior_predictive_ability P [x] rf ns a = none := rfl

/-- Claim C10: a returned list has length at most `N - 2`, and the two
lowest-ranked strategies (positions `N - 2` and `N - 1` of the ranking)
never appear in it. -/
theorem C10_output_bounds (P : Prims α) (df : Panel α) (rf ns a : α)
    (l : List String) (hnd : (df.map Prod.fst).Nodup) (hN : 2 ≤ df.length)
    (h : superior_predictive_ability P df rf ns a = some l) :
    l.length ≤ df.length - 2 ∧
      (rankingOf P df rf).getD (df.length - 2) "" ∉ l ∧
      (rankingOf P df rf).getD (df.length - 1) "" ∉ l := by
  have hl : l = (spaRun P df rf ns a).1 := spa_eq_some h
  have hlen : l.length ≤ df.length - 2 := by
    have hb := spaLoop_length_le P (rankedSharpes P df rf)
      (corrMOf P (rankedColsOf P df rf)) (nRows df) ns a (df.length - 2) 0 []
    have hb2 : (spaRun P df rf ns a).1.length ≤
        ([] : List String).length + (df.length - 2) := hb
    rw [hl]
    simpa using hb2
  have hndr : (rankingOf P df rf).Nodup :=
    ((rankingOf_perm P df rf).nodup_iff).mpr hnd
  obtain ⟨j, hj, hres⟩ := spaLoop_take P (rankedSharpes P df rf)
    (corrMOf P (rankedColsOf P df rf)) (nRows df) ns a (df.length - 2) 0 []
    (by rw [rankedSharpes_length]; omega) (by simp)
  have hrun : (spaRun P df rf ns a).1 =
      ((rankedSharpes P df rf).map Prod.fst).take j := hres
  have hjdf : j ≤ df.length := by rw [rankedSharpes_length] at hj; exact hj
  have hltake : l = (rankingOf P df rf).take j := by rw [hl, hrun]; rfl
  have hjlen : l.length = j := by
    rw [hltake, List.length_take, rankingOf_length]
    omega
  refine ⟨hlen, ?_, ?_⟩
  · have hmem := getD_not_mem_take hndr
      (show j ≤ df.length - 2 by omega)
      (show df.length - 2 < (rankingOf P df rf).length by
        rw [rankingOf_length]; omega)
    rw [hltake]
    exact hmem
  · have hmem := getD_not_mem_take hndr
      (show j ≤ df.length - 1 by omega)
      (show df.length - 1 < (rankingOf P df rf).length by
        rw [rankingOf_length]; omega)
    rw [hltake]
    exact hmem

unseal Rat.add Rat.mul Rat.inv Rat.sub in
/-- Witness for C10 on a 3-strategy run returning `some []`: neither of the
two lowest-ranked names `"B"`, `"C"` is in the output. -/
theorem C10_output_bounds_witness :
    ([] : List String).length ≤ df3.length - 2 ∧
      (rankingOf qPrims df3 0).getD (df3.length - 2) "" ∉ ([] : List String) ∧
      (rankingOf qPrims df3 0).getD (df3.length - 1) "" ∉ ([] : List String) :=
  C10_output_bounds qPrims df3 0 100 (1 / 20) [] (by decide) (by decide)
    (by decide)

end SPA
